import Mathlib

/-!
Verification of the `iterlower` lowercasing iterator adapter
(`src/lib.rs`, `Lowercase<I>` and `IterLowercase::to_lowercase`).

Code points are modelled as `Nat`.  The external Unicode property
oracle (the `icu_properties` sets and `core::char::ToLowercase`) is a
structure of three pure functions, as the adapter only observes those.
The adapter state mirrors the fields of the Rust `Lowercase` struct:
the exhausted-or-not `ToLowercase` iterator is a `List Nat` of the code
points it has still to yield, the `VecDeque` is a `List Nat` popped at
the head and pushed at the tail, and the remaining input of `delegate`
is a `List Nat`.
-/

/-- The external Unicode property oracle interface: `is_cased`,
`is_case_ignorable` and the full lowercase mapping (spec section 4.2). -/
structure CaseOracle where
  cased : Nat → Bool
  case_ignorable : Nat → Bool
  to_lowercase : Nat → List Nat

/-- The adapter state: the fields of the Rust `Lowercase` struct
(`delegate`, `sigma_trailing_case_ignorables`, `sigma_trail`, `lower`,
`prev_cased`, `tr_az`); the two property-set handles are passed
separately as a `CaseOracle`. -/
structure Lowercase where
  delegate : List Nat
  sigma_trailing_case_ignorables : List Nat
  sigma_trail : Option Nat
  lower : List Nat
  prev_cased : Bool
  tr_az : Bool
deriving DecidableEq

/-- The sigma lookahead loop body (the `loop` in `Lowercase::next`,
lines 58-70 of `src/lib.rs`), recursing over the remaining delegate:
each Case_Ignorable character is pushed onto the queue `q`; the first
other character `t` is stored in `sigma_trail` and decides between
U+03C3 (if `t` is cased) and U+03C2; exhaustion yields U+03C2. -/
def sigma_lookahead_go (o : CaseOracle) (st : Lowercase) (q : List Nat) :
    List Nat → Option Nat × Lowercase
  | [] => (some 0x3C2, { st with delegate := [], sigma_trailing_case_ignorables := q })
  | t :: rest =>
    if o.case_ignorable t then
      sigma_lookahead_go o st (q ++ [t]) rest
    else if o.cased t then
      (some 0x3C3, { st with delegate := rest,
                             sigma_trailing_case_ignorables := q,
                             sigma_trail := some t })
    else
      (some 0x3C2, { st with delegate := rest,
                             sigma_trailing_case_ignorables := q,
                             sigma_trail := some t })

/-- The sigma lookahead loop, started on the current queue and delegate. -/
def sigma_lookahead (o : CaseOracle) (st : Lowercase) : Option Nat × Lowercase :=
  sigma_lookahead_go o st st.sigma_trailing_case_ignorables st.delegate

/-- Classification of an input character `c` just obtained from
`sigma_trail` or from the delegate (lines 52-79 of `src/lib.rs`):
the Turkish/Azeri override for U+0049, then the cased branch with the
ambiguous-sigma lookahead and the general `to_lowercase` expansion,
then the uncased passthrough which clears `prev_cased` on
non-Case_Ignorable characters. -/
def process (o : CaseOracle) (st : Lowercase) (c : Nat) : Option Nat × Lowercase :=
  if st.tr_az = true ∧ c = 0x49 then
    (some 0x131, { st with prev_cased := true })
  else if o.cased c = true then
    if c = 0x3A3 ∧ st.prev_cased = true then
      sigma_lookahead o st
    else
      ((o.to_lowercase c).head?,
       { st with prev_cased := true, lower := (o.to_lowercase c).tail })
  else if st.prev_cased = true ∧ o.case_ignorable c = false then
    (some c, { st with prev_cased := false })
  else
    (some c, st)

/-- One pull of the adapter (`Lowercase::next`, lines 37-80 of
`src/lib.rs`): drain `lower`, then the sigma ignorable queue, then take
`sigma_trail` if present else one delegate character and classify it;
with everything empty, signal end of sequence with `none`. -/
def next (o : CaseOracle) (st : Lowercase) : Option Nat × Lowercase :=
  match st.lower with
  | c :: rest => (some c, { st with lower := rest })
  | [] =>
    match st.sigma_trailing_case_ignorables with
    | c :: rest => (some c, { st with sigma_trailing_case_ignorables := rest })
    | [] =>
      match st.sigma_trail with
      | some c => process o { st with sigma_trail := none } c
      | none =>
        match st.delegate with
        | c :: rest => process o { st with delegate := rest } c
        | [] => (none, st)

/-- The adapter surface `IterLowercase::to_lowercase` (lines 96-113 of
`src/lib.rs`): a fresh state over the given source; the `lower` field
starts as an already-consumed `ToLowercase` iterator, hence empty. -/
def IterLowercase.to_lowercase (delegate : List Nat) (tr_az : Bool) : Lowercase :=
  { delegate := delegate
    sigma_trailing_case_ignorables := []
    sigma_trail := none
    lower := []
    prev_cased := false
    tr_az := tr_az }

/-- Fuel-indexed driver collecting the adapter's outputs until `next`
signals end of sequence or the fuel runs out. -/
def run (o : CaseOracle) : Nat → Lowercase → List Nat
  | 0, _ => []
  | fuel + 1, st =>
    match next o st with
    | (none, _) => []
    | (some c, st') => c :: run o fuel st'

/-- Fuel sufficient to exhaust the adapter over input `s`: every input
character yields at most `1 + (o.to_lowercase c).length` outputs, plus
one final end-of-sequence pull. -/
def fuel_bound (o : CaseOracle) (s : List Nat) : Nat :=
  1 + s.length + (s.flatMap o.to_lowercase).length

/-- Whole-list output of the adapter over a finite source, as the tests
of `src/lib.rs` collect it into a `String`. -/
def lowercaseList (o : CaseOracle) (tr_az : Bool) (s : List Nat) : List Nat :=
  run o (fuel_bound o s) (IterLowercase.to_lowercase s tr_az)

/-- Modelled from the spec: the external Unicode character database
(the `icu_properties` `Cased` and `CaseIgnorable` sets and the standard
`char::to_lowercase` mapping, spec section 4.2), restricted to the code
points exercised here, with their actual Unicode values: Latin A B I i
and dotted/dotless I, Greek capital/small/final sigma and delta, the
combining acute U+0301 (Case_Ignorable), U+02B0 MODIFIER LETTER SMALL H
(both Cased, via Other_Lowercase, and Case_Ignorable, as a modifier
letter), the ideograph U+732A and the space (neither property). -/
def ucd : CaseOracle where
  cased c := ([0x41, 0x42, 0x49, 0x61, 0x62, 0x69, 0x130, 0x131,
               0x3A3, 0x3C2, 0x3C3, 0x394, 0x3B4, 0x2B0] : List Nat).contains c
  case_ignorable c := ([0x301, 0x2B0] : List Nat).contains c
  to_lowercase c :=
    if c = 0x41 then [0x61]
    else if c = 0x42 then [0x62]
    else if c = 0x49 then [0x69]
    else if c = 0x130 then [0x69, 0x307]
    else if c = 0x3A3 then [0x3C3]
    else if c = 0x394 then [0x3B4]
    else [c]


/-- Modelled from the spec: the trusted standard whole-string
lowercasing reference (Rust `str::to_lowercase`), restricted to inputs
with unambiguous casing.  On input without any capital sigma the
reference has no context-sensitive behaviour and is the concatenation
of the full per-character lowercase mappings. -/
def referenceLowercase (o : CaseOracle) (s : List Nat) : List Nat :=
  s.flatMap o.to_lowercase

/-- An oracle allowed by the spec's interface, which permits lowercase
mappings of length zero (spec section 4.2): the single cased character
U+0041 maps to the empty sequence. -/
def emptyMapOracle : CaseOracle where
  cased c := c == 0x41
  case_ignorable _ := false
  to_lowercase _ := []

/-- The state after `n` pulls of the adapter. -/
def pullN (o : CaseOracle) : Nat → Lowercase → Lowercase
  | 0, st => st
  | n + 1, st => pullN o n ((next o st).2)

/-- Whether the coming pull will run the sigma lookahead: all buffers
drained, and the character about to be classified (held or at the head
of the delegate) is a capital sigma in cased context that the oracle
reports as cased. -/
def pulls_ambiguous_sigma (o : CaseOracle) (st : Lowercase) : Bool :=
  st.lower.isEmpty && st.sigma_trailing_case_ignorables.isEmpty &&
    (match st.sigma_trail with
     | some c => decide (c = 0x3A3) && st.prev_cased && o.cased c
     | none =>
       match st.delegate with
       | c :: _ => decide (c = 0x3A3) && st.prev_cased && o.cased c
       | [] => false)

/-- States of the adapter reachable from a freshly constructed one by
repeated pulls. -/
inductive Reachable (o : CaseOracle) : Lowercase → Prop
  | init (s : List Nat) (tr : Bool) : Reachable o (IterLowercase.to_lowercase s tr)
  | step {st st' : Lowercase} {r : Option Nat} :
      Reachable o st → next o st = (r, st') → Reachable o st'

/-- The sigma lookahead loop splits the remaining delegate at the first
non-Case_Ignorable character: the ignorable prefix is appended to the
queue; a deciding character `t` goes to `sigma_trail` and selects
U+03C3 (cased) or U+03C2; exhaustion of the delegate yields U+03C2. -/
theorem sigma_lookahead_go_spec (o : CaseOracle) (st : Lowercase) :
    ∀ (d q : List Nat),
      sigma_lookahead_go o st q d =
        match d.dropWhile o.case_ignorable with
        | [] => (some 0x3C2,
            { st with delegate := [],
                      sigma_trailing_case_ignorables := q ++ d.takeWhile o.case_ignorable })
        | t :: r => ((if o.cased t then some 0x3C3 else some 0x3C2),
            { st with delegate := r,
                      sigma_trailing_case_ignorables := q ++ d.takeWhile o.case_ignorable,
                      sigma_trail := some t }) := by
  intro d
  induction d with
  | nil => intro q; simp [sigma_lookahead_go]
  | cons t rest ih =>
    intro q
    by_cases hi : o.case_ignorable t
    · rw [show sigma_lookahead_go o st q (t :: rest)
            = sigma_lookahead_go o st (q ++ [t]) rest by simp [sigma_lookahead_go, hi]]
      rw [ih (q ++ [t])]
      simp [List.dropWhile_cons, List.takeWhile_cons, hi]
    · have hi' : o.case_ignorable t = false := by
        cases h : o.case_ignorable t
        · rfl
        · exact absurd h hi
      cases hc : o.cased t
      · simp [sigma_lookahead_go, hi', List.dropWhile_cons, List.takeWhile_cons, hc]
      · simp [sigma_lookahead_go, hi', List.dropWhile_cons, List.takeWhile_cons, hc]

/-- Claim C1: on a pull whose next input character is the Greek capital
sigma U+03A3 with `prev_cased` true, the adapter pulls lookahead
characters from the delegate, queueing each Case_Ignorable one; at the
first non-ignorable `t` it stores `t` in `sigma_trail` and returns
U+03C3 if `t` is cased, else U+03C2; if the delegate is exhausted first
it returns U+03C2. -/
theorem c1_sigma_lookahead (o : CaseOracle) (rest : List Nat) (tr : Bool)
    (hSig : o.cased 0x3A3 = true) :
    next o ⟨0x3A3 :: rest, [], none, [], true, tr⟩ =
      match rest.dropWhile o.case_ignorable with
      | [] => (some 0x3C2, ⟨[], rest.takeWhile o.case_ignorable, none, [], true, tr⟩)
      | t :: r => ((if o.cased t then some 0x3C3 else some 0x3C2),
          ⟨r, rest.takeWhile o.case_ignorable, some t, [], true, tr⟩) := by
  have h1 : next o ⟨0x3A3 :: rest, [], none, [], true, tr⟩
      = sigma_lookahead_go o ⟨rest, [], none, [], true, tr⟩ [] rest := by
    simp [next, process, hSig, sigma_lookahead]
  rw [h1, sigma_lookahead_go_spec]
  rcases h : rest.dropWhile o.case_ignorable with _ | ⟨t, r⟩ <;> simp

/-- Witness for C1: pulling on the source Σ ◌́ B with cased context,
the combining acute is queued, B lands in `sigma_trail`, and since B is
cased the non-final form U+03C3 is returned. -/
theorem c1_sigma_lookahead_witness :
    next ucd ⟨[0x3A3, 0x301, 0x42], [], none, [], true, false⟩ =
      (some 0x3C3, ⟨[], [0x301], some 0x42, [], true, false⟩) :=
  (c1_sigma_lookahead ucd [0x301, 0x42] false (by decide)).trans (by decide)

/-- Claim C3 counterexample: on the single-character input Σ the
adapter yields U+03C3, not the final form U+03C2 that the claim
states: `prev_cased` starts false, so the sigma special case is not
taken at all and the general mapping applies. -/
theorem c3_counterexample :
    lowercaseList ucd false [0x3A3] = [0x3C3] ∧
      ([0x3C3] : List Nat) ≠ [0x3C2] := by decide

/-- Claim C3 as amended: with `turkish_mode = false`, the
single-character input Σ yields the single-character output U+03C3,
because the initial context is uncased and the Unicode final-sigma rule
also requires a preceding cased context, so the end-of-input boundary
is never consulted. -/
theorem c3_amended : lowercaseList ucd false [0x3A3] = [0x3C3] := by decide

/-- Claim C4: with `tr_az` enabled, pulling the Latin capital letter I
(U+0049) marks the context as cased and returns U+0131 without
touching the general mapping buffer; the override does not apply to the
dotted variant U+0130, which goes through the general cased path; and
the input Σ I Σ in Turkish mode yields σ ı ς. -/
theorem c4_turkish (o : CaseOracle) (restI restD : List Nat)
    (p pD tr : Bool) (hD : o.cased 0x130 = true) :
    next o ⟨0x49 :: restI, [], none, [], p, true⟩
      = (some 0x131, ⟨restI, [], none, [], true, true⟩) ∧
    next o ⟨0x130 :: restD, [], none, [], pD, tr⟩
      = ((o.to_lowercase 0x130).head?,
         ⟨restD, [], none, (o.to_lowercase 0x130).tail, true, tr⟩) ∧
    lowercaseList ucd true [0x3A3, 0x49, 0x3A3] = [0x3C3, 0x131, 0x3C2] := by
  refine ⟨by simp [next, process], ?_, by decide⟩
  simp [next, process, hD]

/-- Witness for C4 at concrete inputs, with the U+0130 mapping of the
Unicode database (i followed by combining dot above). -/
theorem c4_turkish_witness :
    next ucd ⟨[0x49], [], none, [], false, true⟩
      = (some 0x131, ⟨[], [], none, [], true, true⟩) ∧
    next ucd ⟨[0x130], [], none, [], false, true⟩
      = (some 0x69, ⟨[], [], none, [0x307], true, true⟩) ∧
    lowercaseList ucd true [0x3A3, 0x49, 0x3A3] = [0x3C3, 0x131, 0x3C2] := by
  have h := c4_turkish ucd [] [] false false true (by decide)
  exact ⟨h.1, h.2.1.trans (by decide), h.2.2⟩

/-- Claim C5: a nonempty `lower` buffer (the pending multi-code-point
mapping) is drained first, before any other state is consulted; and a
cased character taken in the general case returns the head of its full
lowercase mapping while the remainder of the mapping is buffered, in
order, in `lower` (so a one-element mapping is returned whole with
nothing buffered). -/
theorem c5_pending_multi (o : CaseOracle) (st st2 : Lowercase)
    (x c : Nat) (xs rest : List Nat)
    (hl : st.lower = x :: xs)
    (h2l : st2.lower = []) (h2q : st2.sigma_trailing_case_ignorables = [])
    (h2t : st2.sigma_trail = none) (h2d : st2.delegate = c :: rest)
    (h2tr : st2.tr_az = false ∨ c ≠ 0x49)
    (hc : o.cased c = true)
    (hns : ¬(c = 0x3A3 ∧ st2.prev_cased = true)) :
    next o st = (some x, { st with lower := xs }) ∧
    next o st2 = ((o.to_lowercase c).head?,
      { st2 with delegate := rest, prev_cased := true,
                 lower := (o.to_lowercase c).tail }) := by
  constructor
  · obtain ⟨d, q, t, l, p, tr⟩ := st
    simp only at hl
    subst hl
    simp [next]
  · obtain ⟨d, q, t, l, p, tr⟩ := st2
    simp only at h2l h2q h2t h2d
    subst h2l; subst h2q; subst h2t; subst h2d
    rcases h2tr with htr | htr
    · simp only at htr
      subst htr
      simp only at hns
      simp [next, process, hc, hns]
    · simp [next, process, hc, hns, htr]

/-- Witness for C5: draining a two-element pending mapping buffer, and
processing U+0130 whose mapping has two code points (head returned,
tail buffered). -/
theorem c5_pending_multi_witness :
    next ucd ⟨[0x61], [], some 0x42, [0x69, 0x307], true, false⟩
      = (some 0x69, ⟨[0x61], [], some 0x42, [0x307], true, false⟩) ∧
    next ucd ⟨[0x130], [], none, [], false, false⟩
      = (some 0x69, ⟨[], [], none, [0x307], true, false⟩) := by
  have h := c5_pending_multi ucd ⟨[0x61], [], some 0x42, [0x69, 0x307], true, false⟩
    ⟨[0x130], [], none, [], false, false⟩ 0x69 0x130 [0x307] []
    rfl rfl rfl rfl rfl (Or.inl rfl) (by decide) (by decide)
  exact ⟨h.1, h.2.trans (by decide)⟩


/-- From a state whose buffers are empty except for a partially drained
mapping `ls`, and an input without capital sigma whose cased characters
have nonempty mappings and whose uncased characters map to themselves,
the adapter emits `ls` followed by the concatenated mappings. -/
theorem run_clean (o : CaseOracle) :
    ∀ (fuel : Nat) (ls s : List Nat) (p : Bool),
      (∀ c ∈ s, c ≠ 0x3A3 ∧ (o.cased c = true → o.to_lowercase c ≠ []) ∧
                (o.cased c = false → o.to_lowercase c = [c])) →
      ls.length + s.length + (s.flatMap o.to_lowercase).length < fuel →
      run o fuel ⟨s, [], none, ls, p, false⟩ = ls ++ s.flatMap o.to_lowercase := by
  intro fuel
  induction fuel with
  | zero => intro ls s p _ hf; omega
  | succ n ih =>
    intro ls s p h hf
    cases ls with
    | cons x xs =>
      have hstep : run o (n + 1) ⟨s, [], none, x :: xs, p, false⟩
          = x :: run o n ⟨s, [], none, xs, p, false⟩ := by
        simp [run, next]
      rw [hstep, ih xs s p h (by simp only [List.length_cons] at hf ⊢; omega)]
      simp
    | nil =>
      cases s with
      | nil => simp [run, next]
      | cons c rest =>
        obtain ⟨hne, hcased, huncased⟩ := h c (by simp)
        have hrest : ∀ c' ∈ rest, c' ≠ 0x3A3 ∧
            (o.cased c' = true → o.to_lowercase c' ≠ []) ∧
            (o.cased c' = false → o.to_lowercase c' = [c']) :=
          fun c' hc' => h c' (by simp [hc'])
        cases hc : o.cased c with
        | true =>
          obtain ⟨a, as, hm⟩ : ∃ a as, o.to_lowercase c = a :: as := by
            rcases hml : o.to_lowercase c with _ | ⟨a, as⟩
            · exact absurd hml (hcased hc)
            · exact ⟨a, as, rfl⟩
          have hstep : run o (n + 1) ⟨c :: rest, [], none, [], p, false⟩
              = a :: run o n ⟨rest, [], none, as, true, false⟩ := by
            simp [run, next, process, hc, hne, hm]
          rw [hstep, ih as rest true hrest (by
            simp only [List.flatMap_cons, List.length_append, List.length_cons,
              List.length_nil, hm] at hf ⊢
            omega)]
          simp [hm]
        | false =>
          have hm : o.to_lowercase c = [c] := huncased hc
          have harith : ([] : List Nat).length + rest.length
              + (rest.flatMap o.to_lowercase).length < n := by
            simp only [List.flatMap_cons, List.length_append, List.length_cons,
              List.length_nil, hm] at hf ⊢
            omega
          by_cases hpi : p = true ∧ o.case_ignorable c = false
          · have hstep : run o (n + 1) ⟨c :: rest, [], none, [], p, false⟩
                = c :: run o n ⟨rest, [], none, [], false, false⟩ := by
              simp [run, next, process, hc, hpi]
            rw [hstep, ih [] rest false hrest harith]
            simp [hm]
          · have hstep : run o (n + 1) ⟨c :: rest, [], none, [], p, false⟩
                = c :: run o n ⟨rest, [], none, [], p, false⟩ := by
              simp [run, next, process, hc, hpi]
            rw [hstep, ih [] rest p hrest harith]
            simp [hm]

/-- Claim C2: with `turkish_mode = false`, on any input whose
characters have unambiguous casing (no capital sigma, cased characters
with nonempty mappings, uncased characters mapping to themselves), the
concatenation of all code points yielded by the adapter equals the
trusted whole-string lowercasing reference. -/
theorem c2_reference_equivalence (o : CaseOracle) (s : List Nat)
    (h : ∀ c ∈ s, c ≠ 0x3A3 ∧ (o.cased c = true → o.to_lowercase c ≠ []) ∧
                  (o.cased c = false → o.to_lowercase c = [c])) :
    lowercaseList o false s = referenceLowercase o s := by
  have := run_clean o (fuel_bound o s) [] s false h
    (by simp [fuel_bound])
  simpa [lowercaseList, IterLowercase.to_lowercase, referenceLowercase] using this

/-- Witness for C2: the input B İ 猪 (a cased character with a
one-element mapping, a cased character with a two-element mapping, an
uncased ideograph) is lowercased exactly as the reference mapping
concatenation. -/
theorem c2_reference_equivalence_witness :
    lowercaseList ucd false [0x42, 0x130, 0x732A]
      = referenceLowercase ucd [0x42, 0x130, 0x732A] :=
  c2_reference_equivalence ucd [0x42, 0x130, 0x732A] (by decide)

/-- The sigma lookahead never touches the `prev_cased` context flag. -/
theorem sigma_lookahead_prev (o : CaseOracle) (st : Lowercase) :
    ((sigma_lookahead o st).2).prev_cased = st.prev_cased := by
  unfold sigma_lookahead
  rw [sigma_lookahead_go_spec]
  rcases h : st.delegate.dropWhile o.case_ignorable with _ | ⟨t, r⟩ <;> simp

/-- After classifying an input character `c`, the context flag is true
for the Turkish override and for every cased character (even a
Case_Ignorable one), unchanged for an uncased Case_Ignorable character,
and false otherwise. -/
theorem process_prev (o : CaseOracle) (st : Lowercase) (c : Nat) :
    ((process o st c).2).prev_cased =
      (if st.tr_az = true ∧ c = 0x49 then true
       else if o.cased c = true then true
       else if o.case_ignorable c = true then st.prev_cased
       else false) := by
  unfold process
  split_ifs with h1 h2 h3 h4 h5 h6 <;>
    simp_all [sigma_lookahead_prev]

/-- Claim C6 counterexample: U+02B0 MODIFIER LETTER SMALL H is both
Cased and Case_Ignorable in Unicode; processing it from an uncased
context sets `prev_cased` to true, so the flag is not left unaffected
by every Case_Ignorable input character. -/
theorem c6_counterexample :
    ucd.case_ignorable 0x2B0 = true ∧
    (IterLowercase.to_lowercase [0x2B0] false).prev_cased = false ∧
    ((next ucd (IterLowercase.to_lowercase [0x2B0] false)).2).prev_cased = true := by
  decide

/-- Claim C6 as amended: pulls that merely drain the pending-mapping
buffer or the ignorable lookahead queue (including ignorables buffered
during sigma lookahead) leave `prev_cased` unchanged; a pull that
classifies an input character `c` sets it to true for the Turkish
override and for every Cased character, leaves it unchanged for an
uncased Case_Ignorable character, and clears it otherwise — so a
character that is both Cased and Case_Ignorable does update the flag. -/
theorem c6_prev_cased (o : CaseOracle) (st1 st2 st3 : Lowercase)
    (c x y : Nat) (xs ys : List Nat)
    (h1 : st1.lower = x :: xs)
    (h2l : st2.lower = []) (h2q : st2.sigma_trailing_case_ignorables = y :: ys)
    (h3l : st3.lower = []) (h3q : st3.sigma_trailing_case_ignorables = [])
    (h3t : st3.sigma_trail = some c ∨
           (st3.sigma_trail = none ∧ st3.delegate.head? = some c)) :
    ((next o st1).2).prev_cased = st1.prev_cased ∧
    ((next o st2).2).prev_cased = st2.prev_cased ∧
    ((next o st3).2).prev_cased =
      (if st3.tr_az = true ∧ c = 0x49 then true
       else if o.cased c = true then true
       else if o.case_ignorable c = true then st3.prev_cased
       else false) := by
  refine ⟨?_, ?_, ?_⟩
  · obtain ⟨d, q, t, l, p, tr⟩ := st1
    simp only at h1
    subst h1
    simp [next]
  · obtain ⟨d, q, t, l, p, tr⟩ := st2
    simp only at h2l h2q
    subst h2l; subst h2q
    simp [next]
  · obtain ⟨d, q, t, l, p, tr⟩ := st3
    simp only at h3l h3q h3t
    subst h3l; subst h3q
    rcases h3t with ht | ⟨ht, hd⟩
    · subst ht
      simpa [next] using process_prev o ⟨d, [], none, [], p, tr⟩ c
    · subst ht
      cases d with
      | nil => simp at hd
      | cons c0 rest =>
        simp only [List.head?_cons, Option.some_inj] at hd
        subst hd
        simpa [next] using process_prev o ⟨rest, [], none, [], p, tr⟩ c0

/-- Witness for C6: a drain of the pending mapping, a drain of the
ignorable queue, and classification of U+02B0 (cased, so the flag
becomes true even from an uncased context). -/
theorem c6_prev_cased_witness :
    ((next ucd ⟨[], [], none, [0x61], true, false⟩).2).prev_cased = true ∧
    ((next ucd ⟨[], [0x301], none, [], true, false⟩).2).prev_cased = true ∧
    ((next ucd ⟨[0x2B0], [], none, [], false, false⟩).2).prev_cased = true := by
  have h := c6_prev_cased ucd ⟨[], [], none, [0x61], true, false⟩
    ⟨[], [0x301], none, [], true, false⟩ ⟨[0x2B0], [], none, [], false, false⟩
    0x2B0 0x61 0x301 [] [] rfl rfl rfl rfl rfl (Or.inr ⟨rfl, rfl⟩)
  exact ⟨h.1, h.2.1, h.2.2.trans (by decide)⟩


/-- Classification from a state with empty buffers never produces a
nonempty pending-mapping buffer together with a nonempty queue or a
held lookahead character. -/
theorem process_excl (o : CaseOracle) (st : Lowercase) (c : Nat)
    (hq : st.sigma_trailing_case_ignorables = []) (ht : st.sigma_trail = none)
    (hl : st.lower = []) :
    ((process o st c).2).lower ≠ [] →
      ((process o st c).2).sigma_trailing_case_ignorables = [] ∧
      ((process o st c).2).sigma_trail = none := by
  unfold process
  split_ifs with h1 h2 h3 h4
  · simp [hl]
  · unfold sigma_lookahead
    rw [sigma_lookahead_go_spec]
    rcases h : st.delegate.dropWhile o.case_ignorable with _ | ⟨t, r⟩ <;>
      simp [hl]
  · simp [hq, ht]
  · simp [hl]
  · simp [hl]

/-- A pull never breaks the exclusivity of the pending-mapping buffer:
whenever `lower` is nonempty after the pull, the queue is empty and no
lookahead character is held. -/
theorem next_preserves_excl (o : CaseOracle) (st : Lowercase)
    (inv : st.lower ≠ [] → st.sigma_trailing_case_ignorables = [] ∧ st.sigma_trail = none) :
    ((next o st).2).lower ≠ [] →
      ((next o st).2).sigma_trailing_case_ignorables = [] ∧
      ((next o st).2).sigma_trail = none := by
  obtain ⟨d, q, t, l, p, tr⟩ := st
  cases l with
  | cons x xs =>
    intro hne
    simp only [next] at hne ⊢
    cases xs with
    | nil => simp at hne
    | cons y ys => simpa using inv (by simp)
  | nil =>
    cases q with
    | cons x xs => simp [next]
    | nil =>
      cases t with
      | some c =>
        simpa [next] using process_excl o ⟨d, [], none, [], p, tr⟩ c rfl rfl rfl
      | none =>
        cases d with
        | nil => simp [next]
        | cons c rest =>
          simpa [next] using process_excl o ⟨rest, [], none, [], p, tr⟩ c rfl rfl rfl

/-- In every reachable adapter state, a nonempty pending-mapping buffer
excludes the other two lookahead buffers. -/
theorem reachable_excl (o : CaseOracle) (st : Lowercase) (hr : Reachable o st) :
    st.lower ≠ [] →
      st.sigma_trailing_case_ignorables = [] ∧ st.sigma_trail = none := by
  induction hr with
  | init s tr => intro h; exact absurd rfl h
  | step hst he ih =>
    rename_i st0 st1 r
    intro h
    have := next_preserves_excl o st0 ih
    rw [he] at this
    exact this h

/-- Claim C7 counterexample: after two pulls on the input B Σ ◌́ A the
sigma resolution has left both a nonempty ignorable lookahead queue and
a held lookahead character between pulls, so two of the three buffer
types hold pending output at once, and the held character is not
consumed on the very next pull (which pops the queue instead). -/
theorem c7_counterexample :
    ((next ucd (next ucd
        (IterLowercase.to_lowercase [0x42, 0x3A3, 0x301, 0x41] false)).2).2).sigma_trailing_case_ignorables
      = [0x301] ∧
    ((next ucd (next ucd
        (IterLowercase.to_lowercase [0x42, 0x3A3, 0x301, 0x41] false)).2).2).sigma_trail
      = some 0x41 := by decide

/-- Claim C7 as amended: in every reachable state the pending-mapping
buffer is exclusive — whenever it is nonempty, the ignorable lookahead
queue is empty and no lookahead character is held; the held lookahead
character, which a sigma resolution may leave alongside a nonempty
ignorable queue, is consumed by the first pull that finds both other
buffers empty. -/
theorem c7_buffer_exclusivity (o : CaseOracle) (st st2 : Lowercase) (c : Nat)
    (hr : Reachable o st) (hne : st.lower ≠ [])
    (h2l : st2.lower = []) (h2q : st2.sigma_trailing_case_ignorables = [])
    (h2t : st2.sigma_trail = some c) :
    (st.sigma_trailing_case_ignorables = [] ∧ st.sigma_trail = none) ∧
    next o st2 = process o { st2 with sigma_trail := none } c := by
  refine ⟨reachable_excl o st hr hne, ?_⟩
  obtain ⟨d, q, t, l, p, tr⟩ := st2
  simp only at h2l h2q h2t
  subst h2l; subst h2q; subst h2t
  simp [next]

/-- Witness for C7: the state reached after one pull on the input İ has
a nonempty pending mapping and empty queue and held slot; a state
holding B classifies it on the next pull. -/
theorem c7_buffer_exclusivity_witness :
    ((⟨[], [], none, [0x307], true, false⟩ : Lowercase).sigma_trailing_case_ignorables = [] ∧
     (⟨[], [], none, [0x307], true, false⟩ : Lowercase).sigma_trail = none) ∧
    next ucd ⟨[0x41], [], some 0x42, [], true, false⟩
      = process ucd ⟨[0x41], [], none, [], true, false⟩ 0x42 :=
  c7_buffer_exclusivity ucd ⟨[], [], none, [0x307], true, false⟩
    ⟨[0x41], [], some 0x42, [], true, false⟩ 0x42
    (@Reachable.step ucd (IterLowercase.to_lowercase [0x130] false)
      ⟨[], [], none, [0x307], true, false⟩ (some 0x69)
      (Reachable.init [0x130] false) (by decide))
    (by decide) rfl rfl rfl

/-- Classification of an input character always yields an output code
point, provided cased characters have nonempty lowercase mappings. -/
theorem process_some (o : CaseOracle) (st : Lowercase) (c : Nat)
    (hwf : o.cased c = true → o.to_lowercase c ≠ []) :
    (process o st c).1 ≠ none := by
  unfold process
  split_ifs with h1 h2 h3 h4
  · simp
  · unfold sigma_lookahead
    rw [sigma_lookahead_go_spec]
    rcases h : st.delegate.dropWhile o.case_ignorable with _ | ⟨t, r⟩
    · simp
    · rcases hc : o.cased t <;> simp [hc]
  · rcases hm : o.to_lowercase c with _ | ⟨a, as⟩
    · exact absurd hm (hwf h2)
    · simp [hm]
  · simp
  · simp

/-- Claim C8: provided the oracle gives every cased character a
nonempty lowercase mapping (as the standard library mapping does), a
pull signals end of sequence exactly when the pending mapping, the
ignorable lookahead queue and the held lookahead are all empty and the
source is exhausted; and a fresh adapter over an empty source yields no
output at all. -/
theorem c8_end_of_sequence (o : CaseOracle) (st : Lowercase) (tr : Bool)
    (hwf : ∀ c, o.cased c = true → o.to_lowercase c ≠ []) :
    ((next o st).1 = none ↔
      st.lower = [] ∧ st.sigma_trailing_case_ignorables = [] ∧
      st.sigma_trail = none ∧ st.delegate = []) ∧
    lowercaseList o tr [] = [] := by
  constructor
  · obtain ⟨d, q, t, l, p, trz⟩ := st
    cases l with
    | cons x xs => simp [next]
    | nil =>
      cases q with
      | cons x xs => simp [next]
      | nil =>
        cases t with
        | some c =>
          simpa [next] using process_some o ⟨d, [], none, [], p, trz⟩ c (hwf c)
        | none =>
          cases d with
          | nil => simp [next]
          | cons c rest =>
            simpa [next] using process_some o ⟨rest, [], none, [], p, trz⟩ c (hwf c)
  · simp [lowercaseList, fuel_bound, IterLowercase.to_lowercase, run, next]

/-- Witness for C8 at the fresh adapter over the empty source: every
mapping of the concrete oracle is nonempty, the pull signals end of
sequence, and all four emptiness conditions hold. -/
theorem c8_end_of_sequence_witness :
    ((next ucd (IterLowercase.to_lowercase [] false)).1 = none ↔
      (IterLowercase.to_lowercase [] false).lower = [] ∧
      (IterLowercase.to_lowercase [] false).sigma_trailing_case_ignorables = [] ∧
      (IterLowercase.to_lowercase [] false).sigma_trail = none ∧
      (IterLowercase.to_lowercase [] false).delegate = []) ∧
    lowercaseList ucd false [] = [] :=
  c8_end_of_sequence ucd (IterLowercase.to_lowercase [] false) false
    (by intro c _; simp only [ucd]; split_ifs <;> simp)


/-- Claim C9 counterexample: with a cased character whose lowercase
mapping is empty, the pull returns the end-of-sequence signal, not the
character unmodified as the claim states. -/
theorem c9_counterexample :
    (next emptyMapOracle (IterLowercase.to_lowercase [0x41] false)).1 = none ∧
    (next emptyMapOracle (IterLowercase.to_lowercase [0x41] false)).1 ≠ some 0x41 := by
  decide

/-- Claim C9 as amended: if the lowercase mapping of a cased character
handled by the general case is empty, the pull consumes the character,
still marks the context as cased, and returns the end-of-sequence
signal for that pull — the character is dropped, not passed through
unmodified. -/
theorem c9_empty_mapping (o : CaseOracle) (st : Lowercase) (c : Nat) (rest : List Nat)
    (hl : st.lower = []) (hq : st.sigma_trailing_case_ignorables = [])
    (ht : st.sigma_trail = none) (hd : st.delegate = c :: rest)
    (htr : st.tr_az = false ∨ c ≠ 0x49)
    (hc : o.cased c = true) (hns : ¬(c = 0x3A3 ∧ st.prev_cased = true))
    (hm : o.to_lowercase c = []) :
    next o st = (none, { st with delegate := rest, prev_cased := true, lower := [] }) := by
  obtain ⟨d, q, t, l, p, tr⟩ := st
  simp only at hl hq ht hd
  subst hl; subst hq; subst ht; subst hd
  rcases htr with htr | htr
  · simp only at htr
    subst htr
    simp only at hns
    simp [next, process, hc, hns, hm]
  · simp [next, process, hc, hns, htr, hm]

/-- Witness for C9's amended statement: the empty-mapping oracle on the
single cased character U+0041. -/
theorem c9_empty_mapping_witness :
    next emptyMapOracle (IterLowercase.to_lowercase [0x41] false)
      = (none, ⟨[], [], none, [], true, false⟩) := by
  have h := c9_empty_mapping emptyMapOracle (IterLowercase.to_lowercase [0x41] false)
    0x41 [] rfl rfl rfl rfl (Or.inl rfl) (by decide) (by decide) rfl
  exact h.trans (by decide)



/-- Dropping the head of a list shortens its ignorable prefix by at
most one element. -/
theorem takeWhile_length_drop_one (p : Nat → Bool) (d : List Nat) :
    (d.takeWhile p).length ≤ 1 + ((d.drop 1).takeWhile p).length := by
  cases d with
  | nil => simp
  | cons h t =>
    rw [List.takeWhile_cons]
    cases hp : p h <;> simp
    omega

/-- Classification leaves the remaining source untouched except in the
sigma lookahead. -/
theorem process_delegate_eq (o : CaseOracle) (st : Lowercase) (c : Nat)
    (h : ¬(o.cased c = true ∧ c = 0x3A3 ∧ st.prev_cased = true)) :
    ((process o st c).2).delegate = st.delegate := by
  unfold process
  split_ifs with h1 h2 h3 h4
  · rfl
  · exact absurd ⟨h2, h3⟩ h
  · rfl
  · rfl
  · rfl

/-- The delegate only ever advances: the remaining source after a pull
is a suffix of the remaining source before it. -/
theorem next_delegate_suffix (o : CaseOracle) (st : Lowercase) :
    ((next o st).2).delegate <:+ st.delegate := by
  obtain ⟨d, q, t, l, p, tr⟩ := st
  have hproc : ∀ (st' : Lowercase) (c : Nat),
      ((process o st' c).2).delegate <:+ st'.delegate := by
    intro st' c
    unfold process
    split_ifs with h1 h2 h3 h4
    · exact List.suffix_refl _
    · unfold sigma_lookahead
      rw [sigma_lookahead_go_spec]
      rcases h : st'.delegate.dropWhile o.case_ignorable with _ | ⟨u, r⟩
      · simp
      · have h1 : r <:+ u :: r := ⟨[u], rfl⟩
        have h2 : st'.delegate.dropWhile o.case_ignorable <:+ st'.delegate :=
          List.dropWhile_suffix o.case_ignorable
        rw [h] at h2
        simpa using h1.trans h2
    · exact List.suffix_refl _
    · exact List.suffix_refl _
    · exact List.suffix_refl _
  cases l with
  | cons x xs => exact List.suffix_refl _
  | nil =>
    cases q with
    | cons x xs => exact List.suffix_refl _
    | nil =>
      cases t with
      | some c => simpa [next] using hproc ⟨d, [], none, [], p, tr⟩ c
      | none =>
        cases d with
        | nil => exact List.suffix_refl _
        | cons c rest =>
          have h2 : rest <:+ c :: rest := ⟨[c], rfl⟩
          have := hproc ⟨rest, [], none, [], p, tr⟩ c
          simp only [next]
          exact this.trans h2

/-- The length of a list is the length of its ignorable prefix plus
that of the rest. -/
theorem takeWhile_dropWhile_length (p : Nat → Bool) (d : List Nat) :
    (d.takeWhile p).length + (d.dropWhile p).length = d.length := by
  conv_rhs => rw [← List.takeWhile_append_dropWhile p d]
  rw [List.length_append]

/-- Per-pull consumption bound: a pull consumes at most one source
character, except a pull that runs the sigma lookahead, which
additionally consumes the contiguous Case_Ignorable run after the
sigma plus at most one deciding character. -/
theorem next_consumed_bound (o : CaseOracle) (st : Lowercase) :
    st.delegate.length ≤ ((next o st).2).delegate.length +
      (if pulls_ambiguous_sigma o st = true then
        2 + ((st.delegate.drop 1).takeWhile o.case_ignorable).length
       else 1) := by
  obtain ⟨d, q, t, l, p, tr⟩ := st
  cases l with
  | cons x xs => simp [next, pulls_ambiguous_sigma]
  | nil =>
    cases q with
    | cons x xs => simp [next, pulls_ambiguous_sigma]
    | nil =>
      cases t with
      | some c =>
        by_cases hs : c = 0x3A3 ∧ p = true ∧ o.cased c = true
        · obtain ⟨hc3, hp, hcc⟩ := hs
          have hcc' : o.cased 0x3A3 = true := by rw [← hc3]; exact hcc
          have hflag : pulls_ambiguous_sigma o ⟨d, [], some c, [], p, tr⟩ = true := by
            simp [pulls_ambiguous_sigma, hc3, hp, hcc']
          rw [hflag, if_pos rfl]
          have hstep : (next o ⟨d, [], some c, [], p, tr⟩)
              = sigma_lookahead_go o ⟨d, [], none, [], p, tr⟩ [] d := by
            simp [next, process, hc3, hp, sigma_lookahead, hcc']
          rw [hstep, sigma_lookahead_go_spec]
          have htw := takeWhile_length_drop_one o.case_ignorable d
          have hsp := takeWhile_dropWhile_length o.case_ignorable d
          show d.length ≤ _
          rcases h : d.dropWhile o.case_ignorable with _ | ⟨u, r⟩
          · rw [h] at hsp
            simp only [List.length_nil] at hsp
            simp only [List.length_nil]
            omega
          · rw [h] at hsp
            simp only [List.length_cons] at hsp
            simp only [List.length_cons]
            omega
        · have hne : ¬(o.cased c = true ∧ c = 0x3A3 ∧
              (⟨d, [], none, [], p, tr⟩ : Lowercase).prev_cased = true) := by
            simp only
            intro hcon
            exact hs ⟨hcon.2.1, hcon.2.2, hcon.1⟩
          have hpd := process_delegate_eq o ⟨d, [], none, [], p, tr⟩ c hne
          have hstep : ((next o ⟨d, [], some c, [], p, tr⟩).2).delegate = d := by
            simpa [next] using hpd
          rw [hstep]
          show d.length ≤ _
          split_ifs <;> omega
      | none =>
        cases d with
        | nil => simp [next, pulls_ambiguous_sigma]
        | cons c rest =>
          by_cases hs : c = 0x3A3 ∧ p = true ∧ o.cased c = true
          · obtain ⟨hc3, hp, hcc⟩ := hs
            have hcc' : o.cased 0x3A3 = true := by rw [← hc3]; exact hcc
            have hflag : pulls_ambiguous_sigma o ⟨c :: rest, [], none, [], p, tr⟩ = true := by
              simp [pulls_ambiguous_sigma, hc3, hp, hcc']
            rw [hflag, if_pos rfl]
            have hstep : (next o ⟨c :: rest, [], none, [], p, tr⟩)
                = sigma_lookahead_go o ⟨rest, [], none, [], p, tr⟩ [] rest := by
              simp [next, process, hc3, hp, sigma_lookahead, hcc']
            rw [hstep, sigma_lookahead_go_spec]
            have hsp := takeWhile_dropWhile_length o.case_ignorable rest
            show (c :: rest).length ≤ _
            simp only [List.length_cons, List.drop_one, List.tail_cons]
            rcases h : rest.dropWhile o.case_ignorable with _ | ⟨u, r⟩
            · rw [h] at hsp
              simp only [List.length_nil] at hsp
              simp only [List.length_nil]
              omega
            · rw [h] at hsp
              simp only [List.length_cons] at hsp
              simp only [List.length_cons]
              omega
          · have hne : ¬(o.cased c = true ∧ c = 0x3A3 ∧
                (⟨rest, [], none, [], p, tr⟩ : Lowercase).prev_cased = true) := by
              simp only
              intro hcon
              exact hs ⟨hcon.2.1, hcon.2.2, hcon.1⟩
            have hpd := process_delegate_eq o ⟨rest, [], none, [], p, tr⟩ c hne
            have hstep : ((next o ⟨c :: rest, [], none, [], p, tr⟩).2).delegate = rest := by
              simpa [next] using hpd
            rw [hstep]
            show (c :: rest).length ≤ _
            simp only [List.length_cons]
            split_ifs <;> omega

/-- After any number of pulls the remaining source is a suffix of the
original one. -/
theorem pullN_delegate_suffix (o : CaseOracle) (n : Nat) :
    ∀ st : Lowercase, (pullN o n st).delegate <:+ st.delegate := by
  induction n with
  | zero => intro st; exact List.suffix_refl _
  | succ m ih =>
    intro st
    exact (ih ((next o st).2)).trans (next_delegate_suffix o st)

/-- Iterated consumption bound: if every Case_Ignorable run in the
remaining source has length at most `M`, then `n` pulls consume at most
`n * (2 + M)` source characters. -/
theorem pullN_consumed_bound (o : CaseOracle) (n M : Nat) :
    ∀ st : Lowercase,
      (∀ s', s' <:+ st.delegate → (s'.takeWhile o.case_ignorable).length ≤ M) →
      st.delegate.length ≤ (pullN o n st).delegate.length + n * (2 + M) := by
  induction n with
  | zero => intro st _; simp [pullN]
  | succ m ih =>
    intro st hM
    have hM' : ∀ s', s' <:+ ((next o st).2).delegate →
        (s'.takeWhile o.case_ignorable).length ≤ M :=
      fun s' hs => hM s' (hs.trans (next_delegate_suffix o st))
    have hone := next_consumed_bound o st
    have hbound : (if pulls_ambiguous_sigma o st = true then
        2 + ((st.delegate.drop 1).takeWhile o.case_ignorable).length
       else 1) ≤ 2 + M := by
      split_ifs
      · have := hM (st.delegate.drop 1) (List.drop_suffix 1 st.delegate)
        omega
      · omega
    have hrest := ih ((next o st).2) hM'
    have hmul : (m + 1) * (2 + M) = m * (2 + M) + (2 + M) := by ring
    simp only [pullN]
    omega

/-- Claim C10: each pull consumes at most one source character, except
a sigma-lookahead pull which consumes at most the contiguous
Case_Ignorable run following the ambiguous sigma plus one deciding
character (plus the sigma itself); consequently `n` pulls consume at
most `n * (2 + M)` source characters whenever every ignorable run in
the remaining source is bounded by `M` — never the entire remaining
stream. -/
theorem c10_laziness (o : CaseOracle) (st : Lowercase) (n M : Nat)
    (hM : ∀ s', s' <:+ st.delegate → (s'.takeWhile o.case_ignorable).length ≤ M) :
    st.delegate.length ≤ ((next o st).2).delegate.length +
      (if pulls_ambiguous_sigma o st = true then
        2 + ((st.delegate.drop 1).takeWhile o.case_ignorable).length
       else 1) ∧
    st.delegate.length ≤ (pullN o n st).delegate.length + n * (2 + M) :=
  ⟨next_consumed_bound o st, pullN_consumed_bound o n M st hM⟩

/-- Witness for C10 on the empty source with `M = 0` and one pull. -/
theorem c10_laziness_witness :
    (IterLowercase.to_lowercase [] false).delegate.length ≤
      ((next ucd (IterLowercase.to_lowercase [] false)).2).delegate.length +
        (if pulls_ambiguous_sigma ucd (IterLowercase.to_lowercase [] false) = true then
          2 + (((IterLowercase.to_lowercase [] false).delegate.drop 1).takeWhile
                ucd.case_ignorable).length
         else 1) ∧
    (IterLowercase.to_lowercase [] false).delegate.length ≤
      (pullN ucd 1 (IterLowercase.to_lowercase [] false)).delegate.length + 1 * (2 + 0) :=
  c10_laziness ucd (IterLowercase.to_lowercase [] false) 1 0
    (by
      intro s' hs
      rw [List.suffix_nil.mp hs]
      simp)
